import Mathlib

/-!
# Verification of the meeting-action-extractor engine

Shallow embedding of `extract_actions.py`: the pattern-based matcher
(`extract_with_regex`), the two model requesters (`extract_with_openai`,
`extract_with_ollama`) and the dispatcher (`extract_action_items`), together
with the response post-processing pipeline (fenced-code-marker stripping via
`re.sub`, then `json.loads`).

Modelling conventions:
* Python strings are `List Char`; `s2l` converts a Lean string literal.
* Python character classes (`\w`, `\s`, `\d`, `[A-Z]` under `re.IGNORECASE`)
  are modelled over ASCII, which covers every input the claims mention.
* `json.loads` is embedded as a fuel-based recursive-descent parser returning
  `Option Json`.  Numbers are kept as their source lexeme (the claims never
  compare numerals across different spellings), and `\uXXXX` escapes decode to
  the corresponding code point.  Leading/trailing whitespace is ignored, as in
  Python; the embedding trims trailing whitespace up front, which is
  extensionally the same acceptance condition.
* Exceptions are `Except PyError`; the `try/except` blocks of the source are
  explicit `match`es on the modelled outcome of the external call.
-/

def s2l (s : String) : List Char := s.data

/-- JSON values as returned by `json.loads`.  Object fields are kept in parse
order (duplicate keys can repeat; the claims never depend on that). -/
inductive Json where
  | null : Json
  | bool (b : Bool) : Json
  | num (lit : List Char) : Json
  | str (s : List Char) : Json
  | arr (elems : List Json) : Json
  | obj (fields : List (List Char × Json)) : Json

/-- JSON whitespace (also Python `str.strip` whitespace for ASCII inputs). -/
def isWsChar (c : Char) : Bool := c = ' ' || c = '\t' || c = '\n' || c = '\r'

def skipWs (l : List Char) : List Char := l.dropWhile isWsChar

def dropTrailingWs (l : List Char) : List Char :=
  (l.reverse.dropWhile isWsChar).reverse

/-- The backtick character. -/
def btick : Char := Char.ofNat 96

/-- The literal part of the pattern of `re.sub(r'```json\n?', '', result)`. -/
def fence_json : List Char := [btick, btick, btick, 'j', 's', 'o', 'n']

/-- The literal part of the pattern of `re.sub(r'```\n?', '', result)`. -/
def fence3 : List Char := [btick, btick, btick]

/-- `pat` is a literal prefix of `l` (the anchored test of one `re.sub`
pattern occurrence).  Recursion is on `pat` alone so that the test reduces
definitionally when `pat` is concrete. -/
def litPre (pat : List Char) (l : List Char) : Bool :=
  match pat with
  | [] => true
  | a :: as =>
    match l with
    | [] => false
    | b :: bs => a == b && litPre as bs

/-- Drop one leading newline if present (the greedy `\n?` of the patterns). -/
def dropNl (l : List Char) : List Char :=
  match l with
  | c :: r => if c = '\n' then r else c :: r
  | [] => []

/-- One `re.sub(pat ++ "\n?", '', ·)` pass: scan left to right, and at each
position delete the pattern (greedily taking one following newline, as the
regex `\n?` does) or keep the character.  Fuel is consumed once per step;
`l.length` is always enough because every step consumes at least one
character. -/
def stripFence (pat : List Char) : Nat → List Char → List Char
  | 0, l => l
  | _ + 1, [] => []
  | f + 1, c :: l =>
    if litPre pat (c :: l) then
      stripFence pat f (dropNl ((c :: l).drop pat.length))
    else
      c :: stripFence pat f l

/-- `re.sub(r'```json\n?', '', result)` from both requesters. -/
def sub1 (l : List Char) : List Char := stripFence fence_json l.length l

/-- `re.sub(r'```\n?', '', result)` from both requesters. -/
def sub2 (l : List Char) : List Char := stripFence fence3 l.length l

/-! ## `json.loads` -/

def isDigitChar (c : Char) : Bool := c.isDigit

def hexDigitVal (c : Char) : Option Nat :=
  let n := c.toNat
  if 48 ≤ n && n ≤ 57 then some (n - 48)
  else if 97 ≤ n && n ≤ 102 then some (n - 87)
  else if 65 ≤ n && n ≤ 70 then some (n - 55)
  else none

def escChar (c : Char) : Option Char :=
  match c with
  | '"' => some '"'
  | '\\' => some '\\'
  | '/' => some '/'
  | 'b' => some (Char.ofNat 8)
  | 'f' => some (Char.ofNat 12)
  | 'n' => some '\n'
  | 'r' => some '\r'
  | 't' => some '\t'
  | _ => none

/-- Body of a JSON string, after the opening quote.  Raw control characters
are rejected (`strict=True`, the `json.loads` default). -/
def parseStringRest : List Char → Option (List Char × List Char)
  | [] => none
  | '"' :: r => some ([], r)
  | '\\' :: 'u' :: h1 :: h2 :: h3 :: h4 :: r2 =>
    match hexDigitVal h1, hexDigitVal h2, hexDigitVal h3, hexDigitVal h4 with
    | some a, some b, some c, some d =>
      (parseStringRest r2).map fun p => (Char.ofNat (((a * 16 + b) * 16 + c) * 16 + d) :: p.1, p.2)
    | _, _, _, _ => none
  | '\\' :: e :: r2 =>
    match escChar e with
    | some c => (parseStringRest r2).map fun p => (c :: p.1, p.2)
    | none => none
  | ['\\'] => none
  | c :: r =>
    if c.toNat < 32 then none
    else (parseStringRest r).map fun p => (c :: p.1, p.2)

def parseExpDigits (acc : List Char) (l : List Char) : Option (List Char × List Char) :=
  if (l.takeWhile isDigitChar).isEmpty then none
  else some (acc ++ l.takeWhile isDigitChar, l.dropWhile isDigitChar)

def parseExp (acc : List Char) (l : List Char) : Option (List Char × List Char) :=
  match l with
  | 'e' :: '+' :: r => parseExpDigits (acc ++ ['e', '+']) r
  | 'e' :: '-' :: r => parseExpDigits (acc ++ ['e', '-']) r
  | 'e' :: r => parseExpDigits (acc ++ ['e']) r
  | 'E' :: '+' :: r => parseExpDigits (acc ++ ['E', '+']) r
  | 'E' :: '-' :: r => parseExpDigits (acc ++ ['E', '-']) r
  | 'E' :: r => parseExpDigits (acc ++ ['E']) r
  | _ => some (acc, l)

def parseFrac (acc : List Char) (l : List Char) : Option (List Char × List Char) :=
  match l with
  | '.' :: r =>
    if (r.takeWhile isDigitChar).isEmpty then none
    else parseExp (acc ++ '.' :: r.takeWhile isDigitChar) (r.dropWhile isDigitChar)
  | _ => parseExp acc l

/-- JSON number grammar `-?(0|[1-9][0-9]*)(\.[0-9]+)?([eE][+-]?[0-9]+)?`,
returning the lexeme. -/
def parseNumberBody : List Char → Option (List Char × List Char)
  | '0' :: r => parseFrac ['0'] r
  | c :: r =>
    if c.isDigit then
      parseFrac (c :: r.takeWhile isDigitChar) (r.dropWhile isDigitChar)
    else none
  | [] => none

def parseNumber : List Char → Option (List Char × List Char)
  | '-' :: r => (parseNumberBody r).map fun p => ('-' :: p.1, p.2)
  | l => parseNumberBody l

/-- Anchored case-sensitive literal, returning the rest on success. -/
def parseLit (lit : List Char) (l : List Char) : Option (List Char) :=
  if litPre lit l then some (l.drop lit.length) else none

/-- Elements of a non-empty array, positioned at the first element; the
element parser `pv` is passed in (it will be `parseValue` at one lower
fuel). -/
def parseArrElemsF (pv : List Char → Option (Json × List Char)) :
    Nat → List Char → List Json → Option (Json × List Char)
  | 0, _, _ => none
  | f + 1, l, acc =>
    match pv l with
    | none => none
    | some (v, r) =>
      match skipWs r with
      | ']' :: r2 => some (.arr (acc ++ [v]), r2)
      | ',' :: r2 => parseArrElemsF pv f (skipWs r2) (acc ++ [v])
      | _ => none

/-- Members of a non-empty object, positioned at the first key. -/
def parseObjElemsF (pv : List Char → Option (Json × List Char)) :
    Nat → List Char → List (List Char × Json) → Option (Json × List Char)
  | 0, _, _ => none
  | f + 1, l, acc =>
    match l with
    | '"' :: r =>
      match parseStringRest r with
      | none => none
      | some (key, r1) =>
        match skipWs r1 with
        | ':' :: r2 =>
          match pv (skipWs r2) with
          | none => none
          | some (v, r3) =>
            match skipWs r3 with
            | '}' :: r4 => some (.obj (acc ++ [(key, v)]), r4)
            | ',' :: r4 => parseObjElemsF pv f (skipWs r4) (acc ++ [(key, v)])
            | _ => none
        | _ => none
    | _ => none

/-- One JSON value, starting at a non-whitespace position.  Dispatch is on
the first character; literals (`true`, `false`, `null`, and the
`json.loads` constants `NaN`, `Infinity`, `-Infinity`) are checked with
`parseLit`. -/
def parseValue : Nat → List Char → Option (Json × List Char)
  | 0, _ => none
  | f + 1, l =>
    match l with
    | [] => none
    | c :: r =>
      if c = '{' then
        match skipWs r with
        | '}' :: r2 => some (.obj [], r2)
        | l2 => parseObjElemsF (parseValue f) f l2 []
      else if c = '[' then
        match skipWs r with
        | ']' :: r2 => some (.arr [], r2)
        | l2 => parseArrElemsF (parseValue f) f l2 []
      else if c = '"' then
        (parseStringRest r).map fun p => (.str p.1, p.2)
      else if c = 't' then
        (parseLit (s2l "rue") r).map fun r2 => (.bool true, r2)
      else if c = 'f' then
        (parseLit (s2l "alse") r).map fun r2 => (.bool false, r2)
      else if c = 'n' then
        (parseLit (s2l "ull") r).map fun r2 => (.null, r2)
      else if c = 'N' then
        (parseLit (s2l "aN") r).map fun r2 => (.num (s2l "NaN"), r2)
      else if c = 'I' then
        (parseLit (s2l "nfinity") r).map fun r2 => (.num (s2l "Infinity"), r2)
      else if c = '-' then
        match parseLit (s2l "Infinity") r with
        | some r2 => some (.num (s2l "-Infinity"), r2)
        | none => (parseNumber (c :: r)).map fun p => (.num p.1, p.2)
      else
        (parseNumber (c :: r)).map fun p => (.num p.1, p.2)

theorem parseArrElemsF_succ (pv : List Char → Option (Json × List Char))
    (f : Nat) (l : List Char) (acc : List Json) :
    parseArrElemsF pv (f + 1) l acc =
      (match pv l with
       | none => none
       | some (v, r) =>
         match skipWs r with
         | ']' :: r2 => some (.arr (acc ++ [v]), r2)
         | ',' :: r2 => parseArrElemsF pv f (skipWs r2) (acc ++ [v])
         | _ => none) := rfl

theorem parseObjElemsF_succ (pv : List Char → Option (Json × List Char))
    (f : Nat) (l : List Char) (acc : List (List Char × Json)) :
    parseObjElemsF pv (f + 1) l acc =
      (match l with
       | '"' :: r =>
         match parseStringRest r with
         | none => none
         | some (key, r1) =>
           match skipWs r1 with
           | ':' :: r2 =>
             match pv (skipWs r2) with
             | none => none
             | some (v, r3) =>
               match skipWs r3 with
               | '}' :: r4 => some (.obj (acc ++ [(key, v)]), r4)
               | ',' :: r4 => parseObjElemsF pv f (skipWs r4) (acc ++ [(key, v)])
               | _ => none
           | _ => none
       | _ => none) := rfl

theorem parseValue_succ (f : Nat) (l : List Char) :
    parseValue (f + 1) l =
      (match l with
       | [] => none
       | c :: r =>
         if c = '{' then
           match skipWs r with
           | '}' :: r2 => some (.obj [], r2)
           | l2 => parseObjElemsF (parseValue f) f l2 []
         else if c = '[' then
           match skipWs r with
           | ']' :: r2 => some (.arr [], r2)
           | l2 => parseArrElemsF (parseValue f) f l2 []
         else if c = '"' then
           (parseStringRest r).map fun p => (.str p.1, p.2)
         else if c = 't' then
           (parseLit (s2l "rue") r).map fun r2 => (.bool true, r2)
         else if c = 'f' then
           (parseLit (s2l "alse") r).map fun r2 => (.bool false, r2)
         else if c = 'n' then
           (parseLit (s2l "ull") r).map fun r2 => (.null, r2)
         else if c = 'N' then
           (parseLit (s2l "aN") r).map fun r2 => (.num (s2l "NaN"), r2)
         else if c = 'I' then
           (parseLit (s2l "nfinity") r).map fun r2 => (.num (s2l "Infinity"), r2)
         else if c = '-' then
           match parseLit (s2l "Infinity") r with
           | some r2 => some (.num (s2l "-Infinity"), r2)
           | none => (parseNumber (c :: r)).map fun p => (.num p.1, p.2)
         else
           (parseNumber (c :: r)).map fun p => (.num p.1, p.2)) := rfl

/-- `json.loads`: skip surrounding whitespace, parse one value, require the
end of the input.  `None` models a raised `json.JSONDecodeError`. -/
def json_loads (l : List Char) : Option Json :=
  match parseValue (2 * (skipWs (dropTrailingWs l)).length + 4) (skipWs (dropTrailingWs l)) with
  | some (v, []) => some v
  | _ => none

/-- `actions if isinstance(actions, list) else [actions]`. -/
def listify (j : Json) : List Json :=
  match j with
  | .arr xs => xs
  | v => [v]

/-- Shared response post-processing of both requesters: the two `re.sub`
fence-stripping passes, `json.loads`, and wrapping a non-list value into a
one-element list.  `none` models the parse failure propagating to the
enclosing `except` block. -/
def parse_llm_response (s : List Char) : Option (List Json) :=
  (json_loads (sub2 (sub1 s))).map listify

/-- The double-quote character. -/
def dq : Char := Char.ofNat 34

/-- The text of a small JSON object response with one key. -/
def sampleObjText : List Char := '{' :: dq :: 'a' :: dq :: ':' :: ' ' :: '1' :: ['}']

/-- The body of a local-server reply whose `response` field is `"[]"`. -/
def sampleOllamaBody : List Char :=
  '{' :: dq :: s2l "response" ++ dq :: ':' :: ' ' :: dq :: '[' :: ']' :: dq :: '}' :: []

-- sanity checks of the parsing pipeline
example : json_loads (s2l "[1, 2]") = some (.arr [.num (s2l "1"), .num (s2l "2")]) := rfl
example : json_loads (' ' :: sampleObjText ++ [' ']) =
    some (.obj [(['a'], .num ['1'])]) := rfl
example : json_loads (s2l "01") = none := rfl
example : json_loads (s2l "-1.5e+3") = some (.num (s2l "-1.5e+3")) := rfl
example : json_loads [] = none := rfl
example : sub1 (fence_json ++ '\n' :: s2l "[1]" ++ '\n' :: fence3) = s2l "[1]" ++ '\n' :: fence3 := rfl
example : sub2 (s2l "[1]" ++ '\n' :: fence3) = s2l "[1]" ++ ['\n'] := rfl
example : parse_llm_response (fence_json ++ '\n' :: s2l "[1]" ++ '\n' :: fence3) =
    some [.num (s2l "1")] := rfl
example : parse_llm_response sampleObjText = some [.obj [(['a'], .num ['1'])]] := rfl

/-! ## Python regex engine (the fragment used by `extract_with_regex`)

A backtracking matcher with Python `re` semantics: alternation prefers the
left branch, greedy repetition prefers the longest extent, lazy repetition
the shortest, and matching is attempted at successive start positions
(leftmost match first).  Every repetition in the three source patterns ranges
over a single-character class, so repetition over a class is primitive. -/

inductive Re where
  | eps : Re
  | cls (p : Char → Bool) : Re
  | seq (r1 r2 : Re) : Re
  | alt (r1 r2 : Re) : Re
  | opt (r : Re) : Re
  | rep1G (p : Char → Bool) : Re
  | repG (p : Char → Bool) : Re
  | rep1L (p : Char → Bool) : Re
  | group (i : Nat) (r : Re) : Re

/-- Captured groups, most recent first (`match.group i` is the first hit). -/
def Caps := List (Nat × List Char)

def firstSome {α : Type} (f : Nat → Option α) : List Nat → Option α
  | [] => none
  | i :: rest =>
    match f i with
    | some a => some a
    | none => firstSome f rest

/-- Backtracking matcher in continuation style: `mmatch r l caps k` tries the
ways `r` can consume a prefix of `l`, in Python preference order, and returns
the first one on which the continuation `k` succeeds. -/
def mmatch {α : Type} : Re → List Char → Caps → (List Char → Caps → Option α) → Option α
  | .eps, l, caps, k => k l caps
  | .cls p, l, caps, k =>
    match l with
    | c :: r => if p c then k r caps else none
    | [] => none
  | .seq r1 r2, l, caps, k => mmatch r1 l caps fun l2 caps2 => mmatch r2 l2 caps2 k
  | .alt r1 r2, l, caps, k =>
    match mmatch r1 l caps k with
    | some a => some a
    | none => mmatch r2 l caps k
  | .opt r, l, caps, k =>
    match mmatch r l caps k with
    | some a => some a
    | none => k l caps
  | .rep1G p, l, caps, k =>
    let n := (l.takeWhile p).length
    firstSome (fun i => k (l.drop i) caps) ((List.range n).map fun j => n - j)
  | .repG p, l, caps, k =>
    let n := (l.takeWhile p).length
    firstSome (fun i => k (l.drop i) caps) ((List.range (n + 1)).map fun j => n - j)
  | .rep1L p, l, caps, k =>
    let n := (l.takeWhile p).length
    firstSome (fun i => k (l.drop i) caps) ((List.range n).map fun j => j + 1)
  | .group i r, l, caps, k =>
    mmatch r l caps fun l2 caps2 => k l2 ((i, l.take (l.length - l2.length)) :: caps2)

/-- Try a match anchored at the head, returning consumed length and groups. -/
def matchAt (re : Re) (l : List Char) : Option (Nat × Caps) :=
  mmatch re l [] fun rest caps => some (l.length - rest.length, caps)

/-- `re.finditer`: scan ascending start positions, emit non-overlapping
matches, resume after each match (one past it when it was empty). -/
def finditerGo (re : Re) : Nat → List Char → List Caps
  | 0, _ => []
  | _ + 1, [] =>
    match matchAt re [] with
    | none => []
    | some (_, caps) => [caps]
  | f + 1, c :: r =>
    match matchAt re (c :: r) with
    | none => finditerGo re f r
    | some (n, caps) =>
      if n = 0 then caps :: finditerGo re f r
      else caps :: finditerGo re f ((c :: r).drop n)

def finditer (re : Re) (text : List Char) : List Caps :=
  finditerGo re (text.length + 1) text

def capGet (caps : Caps) (i : Nat) : Option (List Char) :=
  (List.find? (fun x => x.1 == i) caps).map (·.2)

/-- Python `str.strip()`. -/
def pystrip (l : List Char) : List Char := dropTrailingWs (l.dropWhile isWsChar)

/-- Number of capturing groups of a pattern (`len(match.groups())`). -/
def numGroups : Re → Nat
  | .eps => 0
  | .cls _ => 0
  | .seq a b => numGroups a + numGroups b
  | .alt a b => numGroups a + numGroups b
  | .opt r => numGroups r
  | .rep1G _ => 0
  | .repG _ => 0
  | .rep1L _ => 0
  | .group _ r => numGroups r + 1

/-! ### Character classes (ASCII, `re.IGNORECASE` applied) -/

def isWordChar (c : Char) : Bool := c.isAlphanum || c = '_'
def isSpaceRe (c : Char) : Bool :=
  c = ' ' || c = '\t' || c = '\n' || c = '\r' || c = '\x0b' || c = '\x0c'
def isAlphaChar (c : Char) : Bool := c.isAlpha
def dotChar (c : Char) : Bool := c != '\n'
def isBulletChar (c : Char) : Bool := c = '-' || c = '•' || c = '*'

/-- A case-insensitive literal character (`c` is given lowercase). -/
def chCI (c : Char) : Char → Bool := fun x => x.toLower == c

/-- A case-insensitive literal word. -/
def litCI (w : List Char) : Re := w.foldr (fun c r => .seq (.cls (chCI c)) r) .eps

/-! ### The three source patterns -/

/-- `(?:by|before|until|due)` -/
def markersRe : Re :=
  .alt (litCI (s2l "by")) (.alt (litCI (s2l "before")) (.alt (litCI (s2l "until")) (litCI (s2l "due"))))

/-- `\w+\s*\d*,?\s*\d*|today|tomorrow|next\s+\w+|Friday|Monday|etc\.?` -/
def dateBodyRe : Re :=
  .alt (.seq (.rep1G isWordChar) (.seq (.repG isSpaceRe) (.seq (.repG isDigitChar)
         (.seq (.opt (.cls fun c => c == ',')) (.seq (.repG isSpaceRe) (.repG isDigitChar))))))
  (.alt (litCI (s2l "today"))
  (.alt (litCI (s2l "tomorrow"))
  (.alt (.seq (litCI (s2l "next")) (.seq (.rep1G isSpaceRe) (.rep1G isWordChar)))
  (.alt (litCI (s2l "friday"))
  (.alt (litCI (s2l "monday"))
        (.seq (litCI (s2l "etc")) (.opt (.cls fun c => c == '.'))))))))

/-- `@(\w+)\s+(?:to|will|should)\s+(.+?)(?:by|before|until|due)\s+(...)` -/
def mention_pattern : Re :=
  .seq (.cls fun c => c == '@')
  (.seq (.group 1 (.rep1G isWordChar))
  (.seq (.rep1G isSpaceRe)
  (.seq (.alt (litCI (s2l "to")) (.alt (litCI (s2l "will")) (litCI (s2l "should"))))
  (.seq (.rep1G isSpaceRe)
  (.seq (.group 2 (.rep1L dotChar))
  (.seq markersRe
  (.seq (.rep1G isSpaceRe)
        (.group 3 dateBodyRe))))))))

/-- `[A-Z][a-z]+` under `re.IGNORECASE`: any letter run of length at least 2. -/
def capWordRe : Re := .seq (.cls isAlphaChar) (.rep1G isAlphaChar)

/-- `([A-Z][a-z]+(?:\s+[A-Z][a-z]+)?)\s+(?:will|should|to)\s+(.+?)(?:by|before|until|due)\s+(...)` -/
def name_pattern : Re :=
  .seq (.group 1 (.seq capWordRe (.opt (.seq (.rep1G isSpaceRe) capWordRe))))
  (.seq (.rep1G isSpaceRe)
  (.seq (.alt (litCI (s2l "will")) (.alt (litCI (s2l "should")) (litCI (s2l "to"))))
  (.seq (.rep1G isSpaceRe)
  (.seq (.group 2 (.rep1L dotChar))
  (.seq markersRe
  (.seq (.rep1G isSpaceRe)
        (.group 3 dateBodyRe)))))))

/-- `[-•*]\s*(.+?)(?:by|before|until|due)\s+(...)` -/
def task_pattern : Re :=
  .seq (.cls isBulletChar)
  (.seq (.repG isSpaceRe)
  (.seq (.group 1 (.rep1L dotChar))
  (.seq markersRe
  (.seq (.rep1G isSpaceRe)
        (.group 2 dateBodyRe)))))

/-! ### Building action items -/

def mkActionItem (assignee task due : List Char) : Json :=
  .obj [(s2l "assignee", .str assignee), (s2l "task", .str task),
        (s2l "due_date", .str due), (s2l "priority", .str (s2l "medium")),
        (s2l "context", .str (s2l "extracted from meeting notes"))]

/-- The per-match item construction of `extract_with_regex`: three groups map
to (assignee, task, due_date) with a falsy group 1 replaced by
`"Unassigned"`; exactly two groups force `"Unassigned"`; anything else is
skipped (`continue`). -/
def buildItem (g : Nat) (caps : Caps) : Option Json :=
  if 3 ≤ g then
    let assignee :=
      match capGet caps 1 with
      | some s => if s.isEmpty then s2l "Unassigned" else s
      | none => s2l "Unassigned"
    some (mkActionItem assignee (pystrip ((capGet caps 2).getD []))
          (pystrip ((capGet caps 3).getD [])))
  else if g = 2 then
    some (mkActionItem (s2l "Unassigned") (pystrip ((capGet caps 1).getD []))
          (pystrip ((capGet caps 2).getD [])))
  else none

def patternItems (re : Re) (text : List Char) : List Json :=
  (finditer re text).filterMap (buildItem (numGroups re))

/-- `extract_with_regex`: the three patterns run independently over the whole
text, in order, and their items are concatenated. -/
def extract_with_regex (text : List Char) : List Json :=
  patternItems mention_pattern text ++ patternItems name_pattern text ++
    patternItems task_pattern text

-- sanity checks of the matcher
example : patternItems mention_pattern (s2l "@sarah to finalize API spec by Friday") =
    [mkActionItem (s2l "sarah") (s2l "finalize API spec") (s2l "Friday")] := rfl
example : patternItems task_pattern (s2l "- Update the docs by tomorrow") =
    [mkActionItem (s2l "Unassigned") (s2l "Update the docs") (s2l "tomorrow")] := rfl

/-! ## Model requesters and the dispatcher

The outcome of each external interaction (package import, environment lookup,
HTTP call) is a parameter of the embedding, so the requesters are functions of
an explicit world.  A raised-and-not-caught Python exception is `.error`;
everything raised inside the `try:` block of a requester is caught there and
falls back to `extract_with_regex`, which is the `.ok (extract_with_regex
text)` arms below. -/

inductive PyError where
  | importError (msg : List Char) : PyError
  | valueError (msg : List Char) : PyError

structure OpenAIWorld where
  openai_available : Bool
  env_api_key : Option (List Char)
  response : Except (List Char) (Option (List Char))

structure OllamaResp where
  status : Nat
  body : List Char

structure OllamaWorld where
  requests_available : Bool
  response : Except (List Char) OllamaResp

/-- Python `a or b` on optional strings: `None` and `""` are falsy. -/
def pyOrStr (a b : Option (List Char)) : Option (List Char) :=
  match a with
  | some s => if s.isEmpty then b else some s
  | none => b

/-- Python truthiness of an optional string. -/
def pyTruthy (a : Option (List Char)) : Bool :=
  match a with
  | some s => !s.isEmpty
  | none => false

/-- `extract_with_openai`: the import and credential checks run before the
`try:` block, so their exceptions propagate; everything inside the block
(transport error, a `None` message content, a failed parse) is caught and
falls back to the regex extractor. -/
def extract_with_openai (text : List Char) (api_key : Option (List Char))
    (w : OpenAIWorld) : Except PyError (List Json) :=
  if !w.openai_available then
    .error (.importError (s2l "openai package not installed. Install with: pip install openai"))
  else
    let key := pyOrStr api_key w.env_api_key
    if !pyTruthy key then
      .error (.valueError (s2l "OPENAI_API_KEY not found in environment or provided"))
    else
      match w.response with
      | .error _ => .ok (extract_with_regex text)
      | .ok none => .ok (extract_with_regex text)
      | .ok (some content) =>
        match parse_llm_response (pystrip content) with
        | none => .ok (extract_with_regex text)
        | some actions => .ok actions

/-- Python `dict.get`: with duplicate keys the last parsed wins. -/
def pyDictGet (fields : List (List Char × Json)) (key : List Char) : Option Json :=
  (List.find? (fun x => x.1 == key) fields.reverse).map (·.2)

/-- `extract_with_ollama`: the import check precedes the `try:` block;
transport errors, `raise_for_status` (which raises exactly for statuses in
400..599), an unparseable body, a non-object body, a non-string `response`
field and a failed payload parse are all caught inside it. -/
def extract_with_ollama (text : List Char) (_base_url _model : List Char)
    (w : OllamaWorld) : Except PyError (List Json) :=
  if !w.requests_available then
    .error (.importError (s2l "requests package not installed. Install with: pip install requests"))
  else
    match w.response with
    | .error _ => .ok (extract_with_regex text)
    | .ok resp =>
      if 400 ≤ resp.status ∧ resp.status < 600 then .ok (extract_with_regex text)
      else
        match json_loads resp.body with
        | none => .ok (extract_with_regex text)
        | some (.obj fields) =>
          match pyDictGet fields (s2l "response") with
          | some (.str s) =>
            match parse_llm_response s with
            | none => .ok (extract_with_regex text)
            | some actions => .ok actions
          | some _ => .ok (extract_with_regex text)
          | none =>
            match parse_llm_response [] with
            | none => .ok (extract_with_regex text)
            | some actions => .ok actions
        | some _ => .ok (extract_with_regex text)

/-- The `**kwargs` consulted by the dispatcher. -/
structure Kwargs where
  api_key : Option (List Char)
  base_url : Option (List Char)
  model : Option (List Char)

def emptyKwargs : Kwargs := ⟨none, none, none⟩

/-- `extract_action_items`: dispatch on the provider name; anything other
than `"openai"` and `"ollama"` selects the regex extractor. -/
def extract_action_items (text : List Char) (provider : List Char) (kw : Kwargs)
    (wOpenai : OpenAIWorld) (wOllama : OllamaWorld) : Except PyError (List Json) :=
  if provider = s2l "openai" then
    extract_with_openai text kw.api_key wOpenai
  else if provider = s2l "ollama" then
    extract_with_ollama text (kw.base_url.getD (s2l "http://localhost:11434"))
      (kw.model.getD (s2l "llama2")) wOllama
  else
    .ok (extract_with_regex text)

-- sanity checks of the engine model
example : extract_action_items (s2l "x") (s2l "openai") emptyKwargs
    ⟨false, none, .error []⟩ ⟨true, .error []⟩ =
    .error (.importError (s2l "openai package not installed. Install with: pip install openai")) := rfl
example : extract_action_items (s2l "x") (s2l "openai") emptyKwargs
    ⟨true, some (s2l "k"), .error (s2l "boom")⟩ ⟨true, .error []⟩ =
    .ok (extract_with_regex (s2l "x")) := rfl
example : extract_action_items (s2l "x") (s2l "ollama") emptyKwargs
    ⟨true, none, .error []⟩ ⟨true, .ok ⟨500, s2l "oops"⟩⟩ =
    .ok (extract_with_regex (s2l "x")) := rfl
example : extract_with_openai (s2l "x") none ⟨true, some (s2l "k"), .ok (some (s2l "[{}]"))⟩ =
    .ok [.obj []] := rfl
-- raise_for_status raises only for 400..599: at 500 the engine falls back,
-- while at 700 the code proceeds and returns the parsed payload
example : extract_with_ollama (s2l "x") (s2l "u") (s2l "m") ⟨true, .ok ⟨500, sampleOllamaBody⟩⟩ =
    .ok (extract_with_regex (s2l "x")) := rfl
example : extract_with_ollama (s2l "x") (s2l "u") (s2l "m") ⟨true, .ok ⟨700, sampleOllamaBody⟩⟩ =
    .ok [] := rfl

/-! ## Field-presence predicate (claim C3) -/

def hasField (fields : List (List Char × Json)) (key : List Char) : Bool :=
  fields.any fun x => x.1 == key

/-- All five `ActionItem` fields are present on a JSON object. -/
def hasAllFields (j : Json) : Bool :=
  match j with
  | .obj fields =>
    hasField fields (s2l "assignee") && hasField fields (s2l "task") &&
      hasField fields (s2l "due_date") && hasField fields (s2l "priority") &&
      hasField fields (s2l "context")
  | _ => false

/-! ## Claim theorems -/

/-- C5: on `"@sarah to finalize API spec by Friday"` the mention pattern
yields exactly one action item, with assignee `sarah`, task
`finalize API spec`, due date `Friday` and priority `medium` (the `medium`
priority and provenance context are fixed inside `mkActionItem`). -/
theorem c5_mention_example :
    patternItems mention_pattern (s2l "@sarah to finalize API spec by Friday") =
      [mkActionItem (s2l "sarah") (s2l "finalize API spec") (s2l "Friday")] := rfl

/-- C6: on `"- Update the docs by tomorrow"` the bullet pattern yields
exactly one action item, with assignee `Unassigned` and due date
`tomorrow`. -/
theorem c6_bullet_example :
    patternItems task_pattern (s2l "- Update the docs by tomorrow") =
      [mkActionItem (s2l "Unassigned") (s2l "Update the docs") (s2l "tomorrow")] := rfl

/-- C10: the deadline-marker alternation is not word-bounded: on
`"- clean the lobby tomorrow"` the only marker occurrence is the `by` inside
`lobby`, yet the matcher emits an item whose task `clean the lob` is the
original task truncated in the middle of that word (second conjunct). -/
theorem c10_marker_not_word_bounded :
    extract_with_regex (s2l "- clean the lobby tomorrow") =
      [mkActionItem (s2l "Unassigned") (s2l "clean the lob") (s2l "tomorrow")] ∧
    s2l "clean the lob" ++ s2l "by tomorrow" = s2l "clean the lobby tomorrow" :=
  ⟨rfl, rfl⟩

/-- C9: a provider name other than `"openai"` and `"ollama"` dispatches to
the regex extractor, exactly as provider `"regex"` does. -/
theorem c9_unknown_provider_is_regex (text provider : List Char)
    (wo : OpenAIWorld) (wl : OllamaWorld)
    (h1 : provider ≠ s2l "openai") (h2 : provider ≠ s2l "ollama") :
    extract_action_items text provider emptyKwargs wo wl =
      extract_action_items text (s2l "regex") emptyKwargs wo wl := by
  unfold extract_action_items
  rw [if_neg h1, if_neg h2, if_neg (by decide), if_neg (by decide)]

/-- Witness for C9 at provider `"unknown"`. -/
theorem c9_unknown_provider_is_regex_witness :
    extract_action_items (s2l "team sync") (s2l "unknown") emptyKwargs
        ⟨true, none, .error []⟩ ⟨true, .error []⟩ =
      extract_action_items (s2l "team sync") (s2l "regex") emptyKwargs
        ⟨true, none, .error []⟩ ⟨true, .error []⟩ :=
  c9_unknown_provider_is_regex _ _ _ _ (by decide) (by decide)

/-- C7: when the fence-stripped payload parses as a single JSON object, the
post-processing returns the one-element list holding that object. -/
theorem c7_single_object_wrapped (s : List Char) (fields : List (List Char × Json))
    (h : json_loads (sub2 (sub1 s)) = some (.obj fields)) :
    parse_llm_response s = some [.obj fields] := by
  unfold parse_llm_response
  rw [h]
  rfl

/-- Witness for C7 on the response `{"a": 1}`. -/
theorem c7_single_object_wrapped_witness :
    parse_llm_response sampleObjText = some [.obj [(['a'], .num ['1'])]] :=
  c7_single_object_wrapped _ _ rfl

/-- C1, counterexample to the claim as stated: with the `openai` package
unavailable (a configuration error), `extract_action_items` raises instead of
returning the regex extractor's result. -/
theorem c1_counterexample :
    extract_action_items (s2l "team sync") (s2l "openai") emptyKwargs
        ⟨false, none, .error []⟩ ⟨true, .error []⟩ ≠
      .ok (extract_with_regex (s2l "team sync")) := by
  intro h
  have h2 : (Except.error
      (.importError (s2l "openai package not installed. Install with: pip install openai")) :
        Except PyError (List Json)) =
      .ok (extract_with_regex (s2l "team sync")) := h
  exact Except.noConfusion h2

/-- C1, amended: a configuration error of the selected requester — missing
optional dependency for either strategy, or a missing/empty credential for
the hosted one — is raised before the `try:` block and therefore propagates
out of `extract_action_items`; it is not converted into a regex fallback. -/
theorem c1_config_error_propagates (text : List Char) (kw : Kwargs)
    (wo : OpenAIWorld) (wl : OllamaWorld) :
    (wo.openai_available = false →
      extract_action_items text (s2l "openai") kw wo wl =
        .error (.importError (s2l "openai package not installed. Install with: pip install openai"))) ∧
    (wo.openai_available = true → pyTruthy (pyOrStr kw.api_key wo.env_api_key) = false →
      extract_action_items text (s2l "openai") kw wo wl =
        .error (.valueError (s2l "OPENAI_API_KEY not found in environment or provided"))) ∧
    (wl.requests_available = false →
      extract_action_items text (s2l "ollama") kw wo wl =
        .error (.importError (s2l "requests package not installed. Install with: pip install requests"))) := by
  have hdo : extract_action_items text (s2l "openai") kw wo wl =
      extract_with_openai text kw.api_key wo := rfl
  have hdl : extract_action_items text (s2l "ollama") kw wo wl =
      extract_with_ollama text (kw.base_url.getD (s2l "http://localhost:11434"))
        (kw.model.getD (s2l "llama2")) wl := rfl
  refine ⟨fun h1 => ?_, fun h1 h2 => ?_, fun h1 => ?_⟩
  · rw [hdo]; unfold extract_with_openai; rw [h1]; rfl
  · rw [hdo]; simp [extract_with_openai, h1, h2]
  · rw [hdl]; unfold extract_with_ollama; rw [h1]; rfl

/-- Witness for C1 (amended), one concrete world per configuration error. -/
theorem c1_config_error_propagates_witness :
    extract_action_items (s2l "team sync") (s2l "openai") emptyKwargs
        ⟨false, none, .error []⟩ ⟨true, .error []⟩ =
      .error (.importError (s2l "openai package not installed. Install with: pip install openai")) ∧
    extract_action_items (s2l "team sync") (s2l "openai") emptyKwargs
        ⟨true, none, .error []⟩ ⟨true, .error []⟩ =
      .error (.valueError (s2l "OPENAI_API_KEY not found in environment or provided")) ∧
    extract_action_items (s2l "team sync") (s2l "ollama") emptyKwargs
        ⟨true, none, .error []⟩ ⟨false, .error []⟩ =
      .error (.importError (s2l "requests package not installed. Install with: pip install requests")) :=
  ⟨(c1_config_error_propagates _ _ _ _).1 rfl,
   (c1_config_error_propagates _ _ _ _).2.1 rfl rfl,
   (c1_config_error_propagates _ _ _ _).2.2 rfl⟩

/-- The hosted requester's call fails inside the `try:` block: transport
error, or a successfully transported message whose payload does not parse. -/
def openaiRequestFails (w : OpenAIWorld) : Prop :=
  (∃ e, w.response = .error e) ∨
  (∃ content, w.response = .ok (some content) ∧
    parse_llm_response (pystrip content) = none)

/-- The local requester's call fails inside the `try:` block: transport
error, a status `raise_for_status` raises on (400..599), an unparseable
body, or a `response` field whose payload does not parse. -/
def ollamaRequestFails (w : OllamaWorld) : Prop :=
  (∃ e, w.response = .error e) ∨
  (∃ resp, w.response = .ok resp ∧
    ((400 ≤ resp.status ∧ resp.status < 600) ∨ json_loads resp.body = none ∨
      (∃ fields s, json_loads resp.body = some (.obj fields) ∧
        pyDictGet fields (s2l "response") = some (.str s) ∧
        parse_llm_response s = none)))

/-- C2: when configuration passes but the request or its response parsing
deterministically fails, both strategies return exactly the regex
extractor's result on the same text, as a normal value. -/
theorem c2_requester_failure_falls_back (text : List Char) (kw : Kwargs)
    (wo : OpenAIWorld) (wl : OllamaWorld)
    (hav1 : wo.openai_available = true)
    (hkey : pyTruthy (pyOrStr kw.api_key wo.env_api_key) = true)
    (hf1 : openaiRequestFails wo)
    (hav2 : wl.requests_available = true)
    (hf2 : ollamaRequestFails wl) :
    extract_action_items text (s2l "openai") kw wo wl = .ok (extract_with_regex text) ∧
    extract_action_items text (s2l "ollama") kw wo wl = .ok (extract_with_regex text) := by
  have hdo : extract_action_items text (s2l "openai") kw wo wl =
      extract_with_openai text kw.api_key wo := rfl
  have hdl : extract_action_items text (s2l "ollama") kw wo wl =
      extract_with_ollama text (kw.base_url.getD (s2l "http://localhost:11434"))
        (kw.model.getD (s2l "llama2")) wl := rfl
  constructor
  · rw [hdo]
    rcases hf1 with ⟨e, he⟩ | ⟨content, hc, hp⟩
    · simp [extract_with_openai, hav1, hkey, he]
    · simp [extract_with_openai, hav1, hkey, hc, hp]
  · rw [hdl]
    rcases hf2 with ⟨e, he⟩ | ⟨resp, hr, hcase⟩
    · simp [extract_with_ollama, hav2, he]
    · by_cases hst : 400 ≤ resp.status ∧ resp.status < 600
      · simp [extract_with_ollama, hav2, hr, hst]
      · rcases hcase with hs | hb | ⟨fields, s, hb, hg, hp⟩
        · exact absurd hs hst
        · simp [extract_with_ollama, hav2, hr, hst, hb]
        · simp [extract_with_ollama, hav2, hr, hst, hb, hg, hp]

/-- Witness for C2: a failing transport for the hosted strategy and a 500
status (inside the 400..599 band `raise_for_status` raises on) for the local
one. -/
theorem c2_requester_failure_falls_back_witness :
    extract_action_items (s2l "team sync") (s2l "openai")
        ⟨some (s2l "k"), none, none⟩ ⟨true, none, .error (s2l "boom")⟩
        ⟨true, .ok ⟨500, sampleOllamaBody⟩⟩ =
      .ok (extract_with_regex (s2l "team sync")) ∧
    extract_action_items (s2l "team sync") (s2l "ollama")
        ⟨some (s2l "k"), none, none⟩ ⟨true, none, .error (s2l "boom")⟩
        ⟨true, .ok ⟨500, sampleOllamaBody⟩⟩ =
      .ok (extract_with_regex (s2l "team sync")) :=
  c2_requester_failure_falls_back _ _ _ _ rfl rfl (Or.inl ⟨_, rfl⟩) rfl
    (Or.inr ⟨_, rfl, Or.inl (by decide)⟩)

/-- C3, amended: every item built by the regex extractor carries all five
fields (the requesters return parsed JSON unvalidated, see the
counterexample). -/
theorem c3_regex_items_have_all_fields (text : List Char) (j : Json)
    (h : j ∈ extract_with_regex text) : hasAllFields j = true := by
  have key : ∀ g caps jj, buildItem g caps = some jj → hasAllFields jj = true := by
    intro g caps jj hb
    unfold buildItem at hb
    split at hb
    · cases hb; rfl
    · split at hb
      · cases hb; rfl
      · exact absurd hb (by simp)
  unfold extract_with_regex at h
  rcases List.mem_append.mp h with h12 | h3
  · rcases List.mem_append.mp h12 with h1 | h2
    · obtain ⟨caps, -, hc⟩ := List.mem_filterMap.mp h1
      exact key _ _ _ hc
    · obtain ⟨caps, -, hc⟩ := List.mem_filterMap.mp h2
      exact key _ _ _ hc
  · obtain ⟨caps, -, hc⟩ := List.mem_filterMap.mp h3
    exact key _ _ _ hc

/-- C3, counterexample to the claim as stated: the hosted requester with the
successfully parsed response `[{}]` returns an item with no fields at all. -/
theorem c3_counterexample :
    extract_with_openai (s2l "team sync") none
        ⟨true, some (s2l "k"), .ok (some (s2l "[{}]"))⟩ = .ok [.obj []] ∧
    hasAllFields (.obj []) = false :=
  ⟨rfl, rfl⟩

/-- Witness for C3 (amended) on the bullet-pattern example item. -/
theorem c3_regex_items_have_all_fields_witness :
    hasAllFields (mkActionItem (s2l "Unassigned") (s2l "Update the docs") (s2l "tomorrow")) = true := by
  have hm : mkActionItem (s2l "Unassigned") (s2l "Update the docs") (s2l "tomorrow") ∈
      extract_with_regex (s2l "- Update the docs by tomorrow") := by
    rw [show extract_with_regex (s2l "- Update the docs by tomorrow") =
      [mkActionItem (s2l "Unassigned") (s2l "Update the docs") (s2l "tomorrow")] from rfl]
    exact List.mem_singleton.mpr rfl
  exact c3_regex_items_have_all_fields _ _ hm

/-! ## Soundness of the matcher (used for claim C4)

`RMatch r s` says the string `s` is one of the ways pattern `r` can match.
`mmatch_sound` extracts, from any successful run of the backtracking matcher,
the matched prefix together with such a derivation. -/

inductive RMatch : Re → List Char → Prop where
  | eps : RMatch .eps []
  | cls {p : Char → Bool} {c : Char} : p c = true → RMatch (.cls p) [c]
  | seq {r1 r2 : Re} {s1 s2 : List Char} :
      RMatch r1 s1 → RMatch r2 s2 → RMatch (.seq r1 r2) (s1 ++ s2)
  | altL {r1 r2 : Re} {s : List Char} : RMatch r1 s → RMatch (.alt r1 r2) s
  | altR {r1 r2 : Re} {s : List Char} : RMatch r2 s → RMatch (.alt r1 r2) s
  | optSome {r : Re} {s : List Char} : RMatch r s → RMatch (.opt r) s
  | optNone {r : Re} : RMatch (.opt r) []
  | rep1G {p : Char → Bool} {s : List Char} :
      s ≠ [] → (∀ c ∈ s, p c = true) → RMatch (.rep1G p) s
  | repG {p : Char → Bool} {s : List Char} :
      (∀ c ∈ s, p c = true) → RMatch (.repG p) s
  | rep1L {p : Char → Bool} {s : List Char} :
      s ≠ [] → (∀ c ∈ s, p c = true) → RMatch (.rep1L p) s
  | group {i : Nat} {r : Re} {s : List Char} : RMatch r s → RMatch (.group i r) s

theorem firstSome_some {α : Type} (f : Nat → Option α) :
    ∀ (lens : List Nat) (a : α), firstSome f lens = some a → ∃ i ∈ lens, f i = some a := by
  intro lens
  induction lens with
  | nil => intro a h; simp [firstSome] at h
  | cons i rest ih =>
    intro a h
    rw [show firstSome f (i :: rest) =
      (match f i with | some x => some x | none => firstSome f rest) from rfl] at h
    cases hf : f i with
    | some b =>
      rw [hf] at h
      exact ⟨i, List.mem_cons_self i rest, hf.trans h⟩
    | none =>
      rw [hf] at h
      obtain ⟨j, hj, hfj⟩ := ih a h
      exact ⟨j, List.mem_cons_of_mem _ hj, hfj⟩

theorem mem_take_of_le_takeWhile {p : Char → Bool} {l : List Char} {i : Nat}
    (h : i ≤ (l.takeWhile p).length) {c : Char} (hc : c ∈ l.take i) : p c = true := by
  have h2 : l.take i = (l.takeWhile p).take i := by
    conv_lhs => rw [← List.takeWhile_append_dropWhile p l]
    rw [List.take_append_of_le_length h]
  rw [h2] at hc
  exact List.mem_takeWhile_imp (List.take_subset i _ hc)

theorem take_ne_nil_of_le {l : List Char} {i : Nat} (h1 : 1 ≤ i) (h2 : i ≤ l.length) :
    l.take i ≠ [] := by
  intro h
  have h3 := congrArg List.length h
  rw [List.length_take] at h3
  simp only [List.length_nil] at h3
  omega

theorem mem_lensDown {n i : Nat} (h : i ∈ (List.range n).map fun j => n - j) :
    1 ≤ i ∧ i ≤ n := by
  obtain ⟨j, hj, rfl⟩ := List.mem_map.mp h
  have := List.mem_range.mp hj
  omega

theorem mem_lensDown0 {n i : Nat} (h : i ∈ (List.range (n + 1)).map fun j => n - j) :
    i ≤ n := by
  obtain ⟨j, hj, rfl⟩ := List.mem_map.mp h
  omega

theorem mem_lensUp {n i : Nat} (h : i ∈ (List.range n).map fun j => j + 1) :
    1 ≤ i ∧ i ≤ n := by
  obtain ⟨j, hj, rfl⟩ := List.mem_map.mp h
  have := List.mem_range.mp hj
  omega

theorem takeWhile_length_le (p : Char → Bool) (l : List Char) :
    (l.takeWhile p).length ≤ l.length :=
  ( List.takeWhile_prefix p).length_le

theorem mmatch_sound {α : Type} :
    ∀ (r : Re) (l : List Char) (caps : Caps) (k : List Char → Caps → Option α) (a : α),
      mmatch r l caps k = some a →
      ∃ s rest caps2, l = s ++ rest ∧ RMatch r s ∧ k rest caps2 = some a := by
  intro r
  induction r with
  | eps =>
    intro l caps k a h
    exact ⟨[], l, caps, rfl, .eps, h⟩
  | cls p =>
    intro l caps k a h
    cases l with
    | nil => simp [mmatch] at h
    | cons c rest =>
      rw [show mmatch (.cls p) (c :: rest) caps k =
        if p c then k rest caps else none from rfl] at h
      by_cases hp : p c = true
      · rw [if_pos hp] at h
        exact ⟨[c], rest, caps, rfl, .cls hp, h⟩
      · rw [if_neg hp] at h
        exact absurd h (by simp)
  | seq r1 r2 ih1 ih2 =>
    intro l caps k a h
    obtain ⟨s1, rest1, caps1, heq1, hm1, hk1⟩ :=
      ih1 l caps (fun l2 c2 => mmatch r2 l2 c2 k) a h
    obtain ⟨s2, rest2, caps2, heq2, hm2, hk2⟩ := ih2 rest1 caps1 k a hk1
    exact ⟨s1 ++ s2, rest2, caps2, by rw [heq1, heq2, List.append_assoc], .seq hm1 hm2, hk2⟩
  | alt r1 r2 ih1 ih2 =>
    intro l caps k a h
    rw [show mmatch (.alt r1 r2) l caps k =
      (match mmatch r1 l caps k with
       | some x => some x
       | none => mmatch r2 l caps k) from rfl] at h
    cases hm : mmatch r1 l caps k with
    | some b =>
      rw [hm] at h
      obtain ⟨s, rest, caps2, heq, hr, hk⟩ := ih1 l caps k b hm
      cases h
      exact ⟨s, rest, caps2, heq, .altL hr, hk⟩
    | none =>
      rw [hm] at h
      obtain ⟨s, rest, caps2, heq, hr, hk⟩ := ih2 l caps k a h
      exact ⟨s, rest, caps2, heq, .altR hr, hk⟩
  | opt r ih =>
    intro l caps k a h
    rw [show mmatch (.opt r) l caps k =
      (match mmatch r l caps k with
       | some x => some x
       | none => k l caps) from rfl] at h
    cases hm : mmatch r l caps k with
    | some b =>
      rw [hm] at h
      obtain ⟨s, rest, caps2, heq, hr, hk⟩ := ih l caps k b hm
      cases h
      exact ⟨s, rest, caps2, heq, .optSome hr, hk⟩
    | none =>
      rw [hm] at h
      exact ⟨[], l, caps, rfl, .optNone, h⟩
  | rep1G p =>
    intro l caps k a h
    obtain ⟨i, hi, hki⟩ := firstSome_some _ _ a h
    obtain ⟨h1, h2⟩ := mem_lensDown hi
    refine ⟨l.take i, l.drop i, caps, (List.take_append_drop i l).symm, ?_, hki⟩
    exact .rep1G (take_ne_nil_of_le h1 (h2.trans (takeWhile_length_le p l)))
      (fun c hc => mem_take_of_le_takeWhile h2 hc)
  | repG p =>
    intro l caps k a h
    obtain ⟨i, hi, hki⟩ := firstSome_some _ _ a h
    have h2 := mem_lensDown0 hi
    refine ⟨l.take i, l.drop i, caps, (List.take_append_drop i l).symm, ?_, hki⟩
    exact .repG (fun c hc => mem_take_of_le_takeWhile h2 hc)
  | rep1L p =>
    intro l caps k a h
    obtain ⟨i, hi, hki⟩ := firstSome_some _ _ a h
    obtain ⟨h1, h2⟩ := mem_lensUp hi
    refine ⟨l.take i, l.drop i, caps, (List.take_append_drop i l).symm, ?_, hki⟩
    exact .rep1L (take_ne_nil_of_le h1 (h2.trans (takeWhile_length_le p l)))
      (fun c hc => mem_take_of_le_takeWhile h2 hc)
  | group i r ih =>
    intro l caps k a h
    obtain ⟨s, rest, caps2, heq, hr, hk⟩ :=
      ih l caps (fun l2 c2 => k l2 ((i, l.take (l.length - l2.length)) :: c2)) a h
    exact ⟨s, rest, (i, l.take (l.length - rest.length)) :: caps2, heq, .group hr, hk⟩

theorem matchAt_sound {re : Re} {l : List Char} {n : Nat} {caps : Caps}
    (h : matchAt re l = some (n, caps)) : ∃ s rest, l = s ++ rest ∧ RMatch re s := by
  obtain ⟨s, rest, caps2, heq, hr, -⟩ := mmatch_sound re l [] _ _ h
  exact ⟨s, rest, heq, hr⟩

theorem finditerGo_sound (re : Re) :
    ∀ (f : Nat) (l : List Char) (caps : Caps), caps ∈ finditerGo re f l →
      ∃ l2 n, l2 <:+ l ∧ matchAt re l2 = some (n, caps) := by
  intro f
  induction f with
  | zero => intro l caps h; simp [finditerGo] at h
  | succ f ih =>
    intro l caps h
    cases l with
    | nil =>
      rw [show finditerGo re (f + 1) [] =
        (match matchAt re [] with
         | none => []
         | some (_, cps) => [cps]) from rfl] at h
      cases hm : matchAt re [] with
      | none => rw [hm] at h; simp at h
      | some nc =>
        obtain ⟨n, cps⟩ := nc
        rw [hm] at h
        simp at h
        exact ⟨[], n, List.suffix_rfl, by rw [h]; exact hm⟩
    | cons c r =>
      rw [show finditerGo re (f + 1) (c :: r) =
        (match matchAt re (c :: r) with
         | none => finditerGo re f r
         | some (n, cps) =>
           if n = 0 then cps :: finditerGo re f r
           else cps :: finditerGo re f ((c :: r).drop n)) from rfl] at h
      cases hm : matchAt re (c :: r) with
      | none =>
        rw [hm] at h
        obtain ⟨l2, n, hsuf, hm2⟩ := ih r caps h
        exact ⟨l2, n, hsuf.trans (List.suffix_cons c r), hm2⟩
      | some nc =>
        obtain ⟨n, cps⟩ := nc
        rw [hm] at h
        change caps ∈ (if n = 0 then cps :: finditerGo re f r
          else cps :: finditerGo re f ((c :: r).drop n)) at h
        by_cases hn : n = 0
        · rw [if_pos hn] at h
          rcases List.mem_cons.mp h with rfl | h2
          · exact ⟨c :: r, n, List.suffix_rfl, hm⟩
          · obtain ⟨l2, m, hsuf, hm2⟩ := ih r caps h2
            exact ⟨l2, m, hsuf.trans (List.suffix_cons c r), hm2⟩
        · rw [if_neg hn] at h
          rcases List.mem_cons.mp h with rfl | h2
          · exact ⟨c :: r, n, List.suffix_rfl, hm⟩
          · obtain ⟨l2, m, hsuf, hm2⟩ := ih _ caps h2
            exact ⟨l2, m, hsuf.trans (List.drop_suffix n (c :: r)), hm2⟩

theorem finditer_sound {re : Re} {text : List Char} {caps : Caps}
    (h : caps ∈ finditer re text) : ∃ s, s <:+: text ∧ RMatch re s := by
  obtain ⟨l2, n, hsuf, hm⟩ := finditerGo_sound re _ text caps h
  obtain ⟨s, rest, heq, hr⟩ := matchAt_sound hm
  obtain ⟨pre, hpre⟩ := hsuf
  exact ⟨s, ⟨pre, rest, by rw [List.append_assoc, ← heq]; exact hpre⟩, hr⟩

theorem rmatch_litCI : ∀ (w s : List Char), RMatch (litCI w) s → s.map Char.toLower = w := by
  intro w
  induction w with
  | nil =>
    intro s h
    rw [show litCI [] = Re.eps from rfl] at h
    cases h
    rfl
  | cons c w ih =>
    intro s h
    rw [show litCI (c :: w) = Re.seq (.cls (chCI c)) (litCI w) from rfl] at h
    cases h with
    | seq h1 h2 =>
      rename_i s1 s2
      cases h1 with
      | cls hp =>
        rename_i x
        have hx : x.toLower = c := by simpa [chCI] using hp
        simp [hx, ih _ h2]

theorem rmatch_mention_has_at {s : List Char} (h : RMatch mention_pattern s) : '@' ∈ s := by
  unfold mention_pattern at h
  cases h with
  | seq h1 h2 =>
    cases h1 with
    | cls hp =>
      rename_i x
      have hx : x = '@' := by simpa using hp
      subst hx
      simp

theorem rmatch_name_has_verb {s : List Char} (h : RMatch name_pattern s) :
    (s2l "will") <:+: s.map Char.toLower ∨ (s2l "should") <:+: s.map Char.toLower ∨
      (s2l "to") <:+: s.map Char.toLower := by
  unfold name_pattern at h
  cases h with
  | seq hg hrest =>
    rename_i sg srest
    cases hrest with
    | seq hws hrest2 =>
      rename_i sw srest2
      cases hrest2 with
      | seq hverb htail =>
        rename_i sv stail
        have key : ∀ w, sv.map Char.toLower = w →
            w <:+: (sg ++ (sw ++ (sv ++ stail))).map Char.toLower := by
          intro w hw
          refine ⟨sg.map Char.toLower ++ sw.map Char.toLower, stail.map Char.toLower, ?_⟩
          simp [← hw, List.append_assoc]
        cases hverb with
        | altL hv => exact Or.inl (key _ (rmatch_litCI _ _ hv))
        | altR hv2 =>
          cases hv2 with
          | altL hv => exact Or.inr (Or.inl (key _ (rmatch_litCI _ _ hv)))
          | altR hv => exact Or.inr (Or.inr (key _ (rmatch_litCI _ _ hv)))

theorem rmatch_task_has_bullet {s : List Char} (h : RMatch task_pattern s) :
    ∃ c ∈ s, isBulletChar c = true := by
  unfold task_pattern at h
  cases h with
  | seq h1 h2 =>
    cases h1 with
    | cls hp =>
      rename_i x
      exact ⟨x, by simp, hp⟩

theorem isInfix_map_toLower {s text : List Char} (h : s <:+: text) :
    s.map Char.toLower <:+: text.map Char.toLower := by
  obtain ⟨a, b, hab⟩ := h
  exact ⟨a.map Char.toLower, b.map Char.toLower, by rw [← hab]; simp⟩

/-- C4, counterexample to the claim as stated: `"bob will fix it by tomorrow"`
contains no `@`, no capitalized letter and no bullet marker, yet the matcher
returns a non-empty result, because `re.IGNORECASE` makes the
capitalized-name pattern match the lowercase name `bob`. -/
theorem c4_counterexample :
    '@' ∉ s2l "bob will fix it by tomorrow" ∧
    (∀ c ∈ s2l "bob will fix it by tomorrow", c.isUpper = false) ∧
    (∀ c ∈ s2l "bob will fix it by tomorrow", isBulletChar c = false) ∧
    extract_with_regex (s2l "bob will fix it by tomorrow") ≠ [] := by
  refine ⟨by decide, by decide, by decide, ?_⟩
  intro h
  have h2 : ([mkActionItem (s2l "bob") (s2l "fix it") (s2l "tomorrow")] : List Json) = [] := h
  exact List.noConfusion h2

/-- C4, amended: since matching is case-insensitive, the name trigger is any
(not necessarily capitalized) name before a verb; a text containing no `@`,
no occurrence of the verbs `will`/`should`/`to` (case-insensitively, as a
substring), and no bullet marker yields an empty result. -/
theorem c4_no_trigger_tokens_empty (text : List Char)
    (h1 : '@' ∉ text)
    (h2 : ¬ (s2l "will") <:+: text.map Char.toLower)
    (h3 : ¬ (s2l "should") <:+: text.map Char.toLower)
    (h4 : ¬ (s2l "to") <:+: text.map Char.toLower)
    (h5 : ∀ c ∈ text, isBulletChar c = false) :
    extract_with_regex text = [] := by
  have hm : finditer mention_pattern text = [] := by
    rw [List.eq_nil_iff_forall_not_mem]
    intro caps hc
    obtain ⟨s, hinf, hr⟩ := finditer_sound hc
    exact h1 (hinf.subset (rmatch_mention_has_at hr))
  have hn : finditer name_pattern text = [] := by
    rw [List.eq_nil_iff_forall_not_mem]
    intro caps hc
    obtain ⟨s, hinf, hr⟩ := finditer_sound hc
    have hmapinf := isInfix_map_toLower hinf
    rcases rmatch_name_has_verb hr with hv | hv | hv
    · exact h2 (hv.trans hmapinf)
    · exact h3 (hv.trans hmapinf)
    · exact h4 (hv.trans hmapinf)
  have ht : finditer task_pattern text = [] := by
    rw [List.eq_nil_iff_forall_not_mem]
    intro caps hc
    obtain ⟨s, hinf, hr⟩ := finditer_sound hc
    obtain ⟨c, hcs, hb⟩ := rmatch_task_has_bullet hr
    rw [h5 c (hinf.subset hcs)] at hb
    exact Bool.noConfusion hb
  unfold extract_with_regex patternItems
  rw [hm, hn, ht]
  rfl

/-- Witness for C4 (amended) on a trigger-free text. -/
theorem c4_no_trigger_tokens_empty_witness :
    extract_with_regex (s2l "all done; nothing pending.") = [] :=
  c4_no_trigger_tokens_empty _ (by decide) (by decide) (by decide) (by decide) (by decide)

/-! ## Claim C8: fenced-code wrapping does not change the parsed payload

First an interface for `sub1`/`sub2`: fuel irrelevance, the hit step and the
miss step. -/

theorem dropNl_cons (c : Char) (r : List Char) :
    dropNl (c :: r) = if c = '\n' then r else c :: r := rfl

theorem dropNl_length_le (l : List Char) : (dropNl l).length ≤ l.length := by
  cases l with
  | nil => exact le_rfl
  | cons c r =>
    rw [dropNl_cons]
    split
    · simp [Nat.le_succ]
    · exact le_rfl

theorem stripFence_fuel (pat : List Char) (hp : pat ≠ []) :
    ∀ f l, l.length ≤ f → stripFence pat f l = stripFence pat l.length l := by
  intro f
  induction f using Nat.strong_induction_on with
  | _ f ih =>
    intro l hl
    cases f with
    | zero =>
      have h0 : l = [] := List.eq_nil_of_length_eq_zero (Nat.le_zero.mp hl)
      subst h0
      rfl
    | succ f =>
      cases l with
      | nil => rfl
      | cons c l =>
        rw [show stripFence pat (f + 1) (c :: l) =
          (if litPre pat (c :: l) then
            stripFence pat f (dropNl ((c :: l).drop pat.length))
          else c :: stripFence pat f l) from rfl]
        rw [show stripFence pat (c :: l).length (c :: l) =
          (if litPre pat (c :: l) then
            stripFence pat l.length (dropNl ((c :: l).drop pat.length))
          else c :: stripFence pat l.length l) from rfl]
        have hplen : 1 ≤ pat.length := by
          cases pat with
          | nil => exact absurd rfl hp
          | cons a b => simp
        have hfl : l.length ≤ f := by simpa using hl
        by_cases hpre : litPre pat (c :: l) = true
        · rw [if_pos hpre, if_pos hpre]
          have hRlen : (dropNl ((c :: l).drop pat.length)).length ≤ l.length := by
            have h1 := dropNl_length_le ((c :: l).drop pat.length)
            have h2 := List.length_drop pat.length (c :: l)
            simp only [List.length_cons] at h2
            omega
          rw [ih f (by omega) _ (hRlen.trans hfl),
            ih l.length (by omega) _ hRlen]
        · rw [if_neg hpre, if_neg hpre, ih f (by omega) l hfl]

theorem sub1_hit (m : List Char) : sub1 (fence_json ++ m) = sub1 (dropNl m) := by
  have h1 : sub1 (fence_json ++ m) = stripFence fence_json (m.length + 6) (dropNl m) := rfl
  rw [h1, stripFence_fuel fence_json (by decide) (m.length + 6) (dropNl m)
    ((dropNl_length_le m).trans (by omega))]
  rfl

theorem sub2_hit (m : List Char) : sub2 (fence3 ++ m) = sub2 (dropNl m) := by
  have h1 : sub2 (fence3 ++ m) = stripFence fence3 (m.length + 2) (dropNl m) := rfl
  rw [h1, stripFence_fuel fence3 (by decide) (m.length + 2) (dropNl m)
    ((dropNl_length_le m).trans (by omega))]
  rfl

theorem litPre_iff : ∀ (pat l : List Char), litPre pat l = true ↔ pat <+: l := by
  intro pat
  induction pat with
  | nil =>
    intro l
    simp [litPre, List.nil_prefix]
  | cons a as ih =>
    intro l
    cases l with
    | nil => simp [litPre]
    | cons b bs =>
      rw [show litPre (a :: as) (b :: bs) = (a == b && litPre as bs) from rfl]
      rw [Bool.and_eq_true, beq_iff_eq, ih bs, List.cons_prefix_cons]

theorem sub1_cons_miss {c : Char} {l : List Char} (h : ¬ fence_json <+: (c :: l)) :
    sub1 (c :: l) = c :: sub1 l := by
  have hb : litPre fence_json (c :: l) = false := by
    cases hq : litPre fence_json (c :: l) with
    | false => rfl
    | true => exact absurd ((litPre_iff _ _).mp hq) h
  rw [show sub1 (c :: l) =
    (if litPre fence_json (c :: l) then
      stripFence fence_json l.length (dropNl ((c :: l).drop fence_json.length))
    else c :: stripFence fence_json l.length l) from rfl]
  rw [hb]
  simp only [Bool.false_eq_true, if_false]
  rfl

theorem sub2_cons_miss {c : Char} {l : List Char} (h : ¬ fence3 <+: (c :: l)) :
    sub2 (c :: l) = c :: sub2 l := by
  have hb : litPre fence3 (c :: l) = false := by
    cases hq : litPre fence3 (c :: l) with
    | false => rfl
    | true => exact absurd ((litPre_iff _ _).mp hq) h
  rw [show sub2 (c :: l) =
    (if litPre fence3 (c :: l) then
      stripFence fence3 l.length (dropNl ((c :: l).drop fence3.length))
    else c :: stripFence fence3 l.length l) from rfl]
  rw [hb]
  simp only [Bool.false_eq_true, if_false]
  rfl

/-- The trailing decoration of the fenced wrapping. -/
def nlf3 : List Char := '\n' :: fence3

theorem not_prefix_append_nl (pat p t : List Char) (hpat : '\n' ∉ pat)
    (hp : ¬ pat <+: p) : ¬ pat <+: (p ++ '\n' :: t) := by
  intro hcontra
  by_cases hlen : pat.length ≤ p.length
  · exact hp (List.prefix_of_prefix_length_le hcontra (List.prefix_append p ('\n' :: t)) hlen)
  · have hple : p <+: pat :=
      List.prefix_of_prefix_length_le (List.prefix_append p ('\n' :: t)) hcontra (by omega)
    obtain ⟨u, hu⟩ := hple
    obtain ⟨t2, ht2⟩ := hcontra
    have hut : u ++ t2 = '\n' :: t := by
      have h3 : p ++ (u ++ t2) = p ++ ('\n' :: t) := by
        rw [← List.append_assoc, hu, ht2]
      exact List.append_cancel_left h3
    cases u with
    | nil =>
      rw [List.append_nil] at hu
      rw [hu] at hlen
      exact hlen le_rfl
    | cons u0 u2 =>
      rw [List.cons_append] at hut
      injection hut with h1 _
      apply hpat
      rw [← hu, ← h1]
      exact List.mem_append_right p (List.mem_cons_self _ _)

theorem sub1_append_fence : ∀ (p : List Char), ¬ fence_json <:+ p →
    sub1 (p ++ nlf3) = sub1 p ++ nlf3 := by
  have main : ∀ n p, p.length ≤ n → ¬ fence_json <:+ p →
      sub1 (p ++ nlf3) = sub1 p ++ nlf3 := by
    intro n
    induction n using Nat.strong_induction_on with
    | _ n ih =>
      intro p hl h
      by_cases hf : fence_json <+: p
      · obtain ⟨q, hq⟩ := hf
        subst hq
        have hl2 : q.length + 7 ≤ n := by
          simp [fence_json] at hl
          omega
        rw [List.append_assoc, sub1_hit, sub1_hit]
        cases q with
        | nil => exact absurd (by simp : fence_json <:+ fence_json ++ []) h
        | cons c q2 =>
          have hl3 : q2.length + 8 ≤ n := by
            simp at hl2
            omega
          by_cases hc : c = '\n'
          · subst hc
            rw [show dropNl (('\n' :: q2) ++ nlf3) = q2 ++ nlf3 from by
                rw [List.cons_append, dropNl_cons, if_pos rfl],
              show dropNl ('\n' :: q2) = q2 from by rw [dropNl_cons, if_pos rfl]]
            exact ih q2.length (by omega) q2 le_rfl
              (fun hs => h (hs.trans ⟨fence_json ++ ['\n'], by simp⟩))
          · rw [show dropNl ((c :: q2) ++ nlf3) = (c :: q2) ++ nlf3 from by
                rw [List.cons_append, dropNl_cons, if_neg hc],
              show dropNl (c :: q2) = c :: q2 from by rw [dropNl_cons, if_neg hc]]
            exact ih (c :: q2).length (by simp; omega) (c :: q2) le_rfl
              (fun hs => h (hs.trans ⟨fence_json, rfl⟩))
      · cases p with
        | nil => rfl
        | cons c q =>
          have hmiss2 : ¬ fence_json <+: (c :: (q ++ nlf3)) :=
            not_prefix_append_nl fence_json (c :: q) fence3 (by decide) hf
          rw [show (c :: q) ++ nlf3 = c :: (q ++ nlf3) from rfl]
          rw [sub1_cons_miss hmiss2, sub1_cons_miss hf]
          rw [ih q.length (by simp at hl; omega) q le_rfl
            (fun hs => h (hs.trans ⟨[c], rfl⟩))]
          rfl
  intro p h
  exact main p.length p le_rfl h

theorem sub2_append_fence : ∀ (p : List Char), ¬ fence3 <:+ p →
    sub2 (p ++ nlf3) = sub2 p ++ ['\n'] := by
  have main : ∀ n p, p.length ≤ n → ¬ fence3 <:+ p →
      sub2 (p ++ nlf3) = sub2 p ++ ['\n'] := by
    intro n
    induction n using Nat.strong_induction_on with
    | _ n ih =>
      intro p hl h
      by_cases hf : fence3 <+: p
      · obtain ⟨q, hq⟩ := hf
        subst hq
        have hl2 : q.length + 3 ≤ n := by
          simp [fence3] at hl
          omega
        rw [List.append_assoc, sub2_hit, sub2_hit]
        cases q with
        | nil => exact absurd (by simp : fence3 <:+ fence3 ++ []) h
        | cons c q2 =>
          have hl3 : q2.length + 4 ≤ n := by
            simp at hl2
            omega
          by_cases hc : c = '\n'
          · subst hc
            rw [show dropNl (('\n' :: q2) ++ nlf3) = q2 ++ nlf3 from by
                rw [List.cons_append, dropNl_cons, if_pos rfl],
              show dropNl ('\n' :: q2) = q2 from by rw [dropNl_cons, if_pos rfl]]
            exact ih q2.length (by omega) q2 le_rfl
              (fun hs => h (hs.trans ⟨fence3 ++ ['\n'], by simp⟩))
          · rw [show dropNl ((c :: q2) ++ nlf3) = (c :: q2) ++ nlf3 from by
                rw [List.cons_append, dropNl_cons, if_neg hc],
              show dropNl (c :: q2) = c :: q2 from by rw [dropNl_cons, if_neg hc]]
            exact ih (c :: q2).length (by simp; omega) (c :: q2) le_rfl
              (fun hs => h (hs.trans ⟨fence3, rfl⟩))
      · cases p with
        | nil => rfl
        | cons c q =>
          have hmiss2 : ¬ fence3 <+: (c :: (q ++ nlf3)) :=
            not_prefix_append_nl fence3 (c :: q) fence3 (by decide) hf
          rw [show (c :: q) ++ nlf3 = c :: (q ++ nlf3) from rfl]
          rw [sub2_cons_miss hmiss2, sub2_cons_miss hf]
          rw [ih q.length (by simp at hl; omega) q le_rfl
            (fun hs => h (hs.trans ⟨[c], rfl⟩))]
          rfl
  intro p h
  exact main p.length p le_rfl h

/-- The strings deleted wholesale by `sub1`: concatenations of pattern
occurrences. -/
inductive PatStar : List Char → Prop where
  | nil : PatStar []
  | step {m : List Char} : PatStar (dropNl m) → PatStar (fence_json ++ m)

/-- Either `sub1` deletes everything (a pattern concatenation), or the last
surviving character `c` splits the input before a deleted tail. -/
theorem sub1_decomp : ∀ (l : List Char),
    (sub1 l = [] ∧ PatStar l) ∨
    (∃ a c b, l = a ++ c :: b ∧ PatStar b ∧ [c] <:+ sub1 l) := by
  have main : ∀ n l, l.length ≤ n →
      (sub1 l = [] ∧ PatStar l) ∨
      (∃ a c b, l = a ++ c :: b ∧ PatStar b ∧ [c] <:+ sub1 l) := by
    intro n
    induction n using Nat.strong_induction_on with
    | _ n ih =>
      intro l hl
      by_cases hf : fence_json <+: l
      · obtain ⟨q, hq⟩ := hf
        subst hq
        have hl2 : q.length + 7 ≤ n := by
          simp [fence_json] at hl
          omega
        rw [sub1_hit]
        cases q with
        | nil =>
          refine Or.inl ⟨rfl, .step ?_⟩
          exact .nil
        | cons c q2 =>
          have hl3 : q2.length + 8 ≤ n := by
            simp at hl2
            omega
          by_cases hc : c = '\n'
          · subst hc
            rw [show dropNl ('\n' :: q2) = q2 from by rw [dropNl_cons, if_pos rfl]]
            rcases ih q2.length (by omega) q2 le_rfl with ⟨h0, hps⟩ | ⟨a, c2, b, heq, hps, hsuf⟩
            · refine Or.inl ⟨h0, .step ?_⟩
              rw [show dropNl ('\n' :: q2) = q2 from by rw [dropNl_cons, if_pos rfl]]
              exact hps
            · refine Or.inr ⟨fence_json ++ '\n' :: a, c2, b, by rw [heq]; simp, hps, hsuf⟩
          · rw [show dropNl (c :: q2) = c :: q2 from by rw [dropNl_cons, if_neg hc]]
            rcases ih (c :: q2).length (by simp; omega) (c :: q2) le_rfl with
              ⟨h0, hps⟩ | ⟨a, c2, b, heq, hps, hsuf⟩
            · refine Or.inl ⟨h0, .step ?_⟩
              rw [show dropNl (c :: q2) = c :: q2 from by rw [dropNl_cons, if_neg hc]]
              exact hps
            · refine Or.inr ⟨fence_json ++ a, c2, b, by rw [heq]; simp, hps, hsuf⟩
      · cases l with
        | nil => exact Or.inl ⟨rfl, .nil⟩
        | cons ch q =>
          rw [sub1_cons_miss hf]
          rcases ih q.length (by simp at hl; omega) q le_rfl with
            ⟨h0, hps⟩ | ⟨a, c2, b, heq, hps, hsuf⟩
          · refine Or.inr ⟨[], ch, q, rfl, hps, ?_⟩
            rw [h0]
          · exact Or.inr ⟨ch :: a, c2, b, by rw [heq]; rfl, hps,
              hsuf.trans (List.suffix_cons ch _)⟩
  intro l
  exact main l.length l le_rfl

theorem patStar_mem : ∀ {b : List Char}, PatStar b → ∀ x ∈ b, x ∈ fence_json ∨ x = '\n' := by
  intro b h
  induction h with
  | nil => intro x hx; simp at hx
  | step hm ih =>
    rename_i m
    intro x hx
    rcases List.mem_append.mp hx with h1 | h2
    · exact Or.inl h1
    · cases m with
      | nil => simp at h2
      | cons c r =>
        rw [dropNl_cons] at ih
        by_cases hc : c = '\n'
        · rw [if_pos hc] at ih
          rcases List.mem_cons.mp h2 with rfl | h3
          · exact Or.inr hc
          · exact ih x h3
        · rw [if_neg hc] at ih
          exact ih x h2

/-- The two suffix-shape facts needed at the fence boundaries, for any text
that is a `]` followed only by whitespace (every parsed JSON array is). -/
theorem fence_facts {p q t : List Char} (hp : p = q ++ ']' :: t)
    (ht : ∀ c ∈ t, isWsChar c = true) :
    ¬ fence_json <:+ p ∧ ¬ fence3 <:+ sub1 p := by
  have hsufJ : (']' :: t) <:+ p := ⟨q, hp.symm⟩
  constructor
  · intro hs
    rcases List.suffix_or_suffix_of_suffix hs hsufJ with h1 | h2
    · have hb : btick ∈ ']' :: t := h1.subset (by decide)
      rcases List.mem_cons.mp hb with hbe | hbt
      · exact absurd hbe (by decide)
      · exact absurd (ht btick hbt) (by decide)
    · have hmem : ']' ∈ fence_json := h2.subset (List.mem_cons_self _ _)
      exact absurd hmem (by decide)
  · intro hs
    rcases sub1_decomp p with ⟨h0, -⟩ | ⟨a, c, b, heq, hps, hcs⟩
    · rw [h0] at hs
      exact absurd (List.suffix_nil.mp hs) (by decide)
    · have hcb : c = btick := by
        rcases List.suffix_or_suffix_of_suffix hcs hs with h1 | h2
        · have hc3 : c ∈ fence3 := h1.subset (List.mem_singleton.mpr rfl)
          rcases (by simpa [fence3] using hc3 : c = btick ∨ c = btick ∨ c = btick) with
            h | h | h <;> exact h
        · have hlen := h2.length_le
          simp [fence3] at hlen
      subst hcb
      have hsufB : (btick :: b) <:+ p := ⟨a, heq.symm⟩
      rcases List.suffix_or_suffix_of_suffix hsufB hsufJ with h1 | h2
      · have hb : btick ∈ ']' :: t := h1.subset (List.mem_cons_self _ _)
        rcases List.mem_cons.mp hb with hbe | hbt
        · exact absurd hbe (by decide)
        · exact absurd (ht btick hbt) (by decide)
      · have hb : ']' ∈ btick :: b := h2.subset (List.mem_cons_self _ _)
        rcases List.mem_cons.mp hb with hbe | hbt
        · exact absurd hbe (by decide)
        · rcases patStar_mem hps ']' hbt with hin | hnl
          · exact absurd hin (by decide)
          · exact absurd hnl (by decide)

/-! ### The remaining input of every sub-parser is a suffix of its input -/

theorem parseStringRest_suffix :
    ∀ (l s r : List Char), parseStringRest l = some (s, r) → r <:+ l := by
  have main : ∀ n l, l.length ≤ n → ∀ s r, parseStringRest l = some (s, r) → r <:+ l := by
    intro n
    induction n using Nat.strong_induction_on with
    | _ n ih =>
      intro l hl s r h
      rw [parseStringRest.eq_def] at h
      split at h
      · exact Option.noConfusion h
      · injection h with hpair
        injection hpair with h1 h2
        subst h2
        exact List.suffix_cons _ _
      · split at h
        · rw [Option.map_eq_some'] at h
          obtain ⟨⟨s2, r3⟩, hps, heq⟩ := h
          injection heq with he1 he2
          subst he2
          refine (ih _ ?_ _ le_rfl _ _ hps).trans ?_
          · simp at hl
            omega
          · exact (List.suffix_cons _ _).trans ((List.suffix_cons _ _).trans
              ((List.suffix_cons _ _).trans ((List.suffix_cons _ _).trans
              ((List.suffix_cons _ _).trans (List.suffix_cons _ _)))))
        · exact Option.noConfusion h
      · split at h
        · rw [Option.map_eq_some'] at h
          obtain ⟨⟨s2, r3⟩, hps, heq⟩ := h
          injection heq with he1 he2
          subst he2
          refine (ih _ ?_ _ le_rfl _ _ hps).trans ?_
          · simp at hl
            omega
          · exact (List.suffix_cons _ _).trans (List.suffix_cons _ _)
        · exact Option.noConfusion h
      · exact Option.noConfusion h
      · split at h
        · exact Option.noConfusion h
        · rw [Option.map_eq_some'] at h
          obtain ⟨⟨s2, r3⟩, hps, heq⟩ := h
          injection heq with he1 he2
          subst he2
          refine (ih _ ?_ _ le_rfl _ _ hps).trans ?_
          · simp at hl
            omega
          · exact List.suffix_cons _ _
  intro l
  exact main l.length l le_rfl

theorem parseExpDigits_suffix (acc l s r : List Char)
    (h : parseExpDigits acc l = some (s, r)) : r <:+ l := by
  unfold parseExpDigits at h
  split at h
  · exact Option.noConfusion h
  · injection h with hpair
    injection hpair with h1 h2
    subst h2
    exact List.dropWhile_suffix _

theorem parseExp_suffix (acc l s r : List Char)
    (h : parseExp acc l = some (s, r)) : r <:+ l := by
  rw [parseExp.eq_def] at h
  split at h
  · exact (parseExpDigits_suffix _ _ _ _ h).trans
      ((List.suffix_cons _ _).trans (List.suffix_cons _ _))
  · exact (parseExpDigits_suffix _ _ _ _ h).trans
      ((List.suffix_cons _ _).trans (List.suffix_cons _ _))
  · exact (parseExpDigits_suffix _ _ _ _ h).trans (List.suffix_cons _ _)
  · exact (parseExpDigits_suffix _ _ _ _ h).trans
      ((List.suffix_cons _ _).trans (List.suffix_cons _ _))
  · exact (parseExpDigits_suffix _ _ _ _ h).trans
      ((List.suffix_cons _ _).trans (List.suffix_cons _ _))
  · exact (parseExpDigits_suffix _ _ _ _ h).trans (List.suffix_cons _ _)
  · injection h with hpair
    injection hpair with h1 h2
    subst h2
    exact List.suffix_rfl

theorem parseFrac_suffix (acc l s r : List Char)
    (h : parseFrac acc l = some (s, r)) : r <:+ l := by
  rw [parseFrac.eq_def] at h
  split at h
  · split at h
    · exact Option.noConfusion h
    · exact ((parseExp_suffix _ _ _ _ h).trans (List.dropWhile_suffix _)).trans
        (List.suffix_cons _ _)
  · exact parseExp_suffix _ _ _ _ h

theorem parseNumberBody_suffix (l s r : List Char)
    (h : parseNumberBody l = some (s, r)) : r <:+ l := by
  rw [parseNumberBody.eq_def] at h
  split at h
  · exact (parseFrac_suffix _ _ _ _ h).trans (List.suffix_cons _ _)
  · split at h
    · exact ((parseFrac_suffix _ _ _ _ h).trans (List.dropWhile_suffix _)).trans
        (List.suffix_cons _ _)
    · exact Option.noConfusion h
  · exact Option.noConfusion h

theorem parseNumber_suffix (l s r : List Char)
    (h : parseNumber l = some (s, r)) : r <:+ l := by
  rw [parseNumber.eq_def] at h
  split at h
  · rw [Option.map_eq_some'] at h
    obtain ⟨⟨s2, r3⟩, hps, heq⟩ := h
    injection heq with he1 he2
    subst he2
    exact (parseNumberBody_suffix _ _ _ hps).trans (List.suffix_cons _ _)
  · exact parseNumberBody_suffix _ _ _ h


theorem parseLit_suffix (lit l r : List Char) (h : parseLit lit l = some r) : r <:+ l := by
  unfold parseLit at h
  split at h
  · injection h with h1
    subst h1
    exact List.drop_suffix _ _
  · exact Option.noConfusion h

theorem parseArrElemsF_suffix (pv : List Char → Option (Json × List Char))
    (hpv : ∀ l v r, pv l = some (v, r) → r <:+ l) :
    ∀ f l acc v r, parseArrElemsF pv f l acc = some (v, r) → r <:+ l := by
  intro f
  induction f with
  | zero => intro l acc v r h; exact Option.noConfusion h
  | succ f ih =>
    intro l acc v r h
    rw [parseArrElemsF_succ] at h
    split at h
    · exact Option.noConfusion h
    · rename_i v1 r1 heq1
      split at h
      · rename_i heq2
        injection h with hpair
        injection hpair with h1 h2
        have h3 : r <:+ skipWs r1 := by
          rw [heq2, ← h2]
          exact List.suffix_cons _ _
        exact (h3.trans (List.dropWhile_suffix _)).trans (hpv _ _ _ heq1)
      · rename_i heq2
        have h4 := (ih _ _ _ _ h).trans (List.dropWhile_suffix _)
        have h5 : r <:+ skipWs r1 := by
          rw [heq2]
          exact h4.trans (List.suffix_cons _ _)
        exact (h5.trans (List.dropWhile_suffix _)).trans (hpv _ _ _ heq1)
      · exact Option.noConfusion h

theorem parseObjElemsF_suffix (pv : List Char → Option (Json × List Char))
    (hpv : ∀ l v r, pv l = some (v, r) → r <:+ l) :
    ∀ f l acc v r, parseObjElemsF pv f l acc = some (v, r) → r <:+ l := by
  intro f
  induction f with
  | zero => intro l acc v r h; exact Option.noConfusion h
  | succ f ih =>
    intro l acc v r h
    rw [parseObjElemsF_succ] at h
    split at h
    · split at h
      · exact Option.noConfusion h
      · rename_i key r1 heqs
        split at h
        · rename_i r2 heq1
          split at h
          · exact Option.noConfusion h
          · rename_i v1 r3 heq2
            split at h
            · rename_i heq3
              injection h with hpair
              injection hpair with h1 h2
              have h3 : r <:+ skipWs r3 := by
                rw [heq3, ← h2]
                exact List.suffix_cons _ _
              have h4 : r <:+ skipWs r2 :=
                (h3.trans (List.dropWhile_suffix _)).trans (hpv _ _ _ heq2)
              have h5 : r <:+ skipWs r1 := by
                rw [heq1]
                exact (h4.trans (List.dropWhile_suffix _)).trans (List.suffix_cons _ _)
              exact ((h5.trans (List.dropWhile_suffix _)).trans
                (parseStringRest_suffix _ _ _ heqs)).trans (List.suffix_cons _ _)
            · rename_i heq3
              have h3 := (ih _ _ _ _ h).trans (List.dropWhile_suffix _)
              have h4 : r <:+ skipWs r3 := by
                rw [heq3]
                exact h3.trans (List.suffix_cons _ _)
              have h5 : r <:+ skipWs r2 :=
                (h4.trans (List.dropWhile_suffix _)).trans (hpv _ _ _ heq2)
              have h6 : r <:+ skipWs r1 := by
                rw [heq1]
                exact (h5.trans (List.dropWhile_suffix _)).trans (List.suffix_cons _ _)
              exact ((h6.trans (List.dropWhile_suffix _)).trans
                (parseStringRest_suffix _ _ _ heqs)).trans (List.suffix_cons _ _)
            · exact Option.noConfusion h
        · exact Option.noConfusion h
    · exact Option.noConfusion h

theorem parseValue_suffix :
    ∀ f l v r, parseValue f l = some (v, r) → r <:+ l := by
  intro f
  induction f with
  | zero => intro l v r h; exact Option.noConfusion h
  | succ f ih =>
    intro l v r h
    rw [parseValue_succ] at h
    split at h
    · exact Option.noConfusion h
    · rename_i c r0
      split at h
      · split at h
        · rename_i heq
          injection h with hpair
          injection hpair with h1 h2
          have h3 : r <:+ skipWs r0 := by
            rw [heq, ← h2]
            exact List.suffix_cons _ _
          exact (h3.trans (List.dropWhile_suffix _)).trans (List.suffix_cons _ _)
        · exact ((parseObjElemsF_suffix _ ih _ _ _ _ _ h).trans
            (List.dropWhile_suffix _)).trans (List.suffix_cons _ _)
      · split at h
        · split at h
          · rename_i heq
            injection h with hpair
            injection hpair with h1 h2
            have h3 : r <:+ skipWs r0 := by
              rw [heq, ← h2]
              exact List.suffix_cons _ _
            exact (h3.trans (List.dropWhile_suffix _)).trans (List.suffix_cons _ _)
          · exact ((parseArrElemsF_suffix _ ih _ _ _ _ _ h).trans
              (List.dropWhile_suffix _)).trans (List.suffix_cons _ _)
        · split at h
          · rw [Option.map_eq_some'] at h
            obtain ⟨⟨s2, r3⟩, hps, heq⟩ := h
            injection heq with he1 he2
            subst he2
            exact (parseStringRest_suffix _ _ _ hps).trans (List.suffix_cons _ _)
          · split at h
            · rw [Option.map_eq_some'] at h
              obtain ⟨r3, hps, heq⟩ := h
              injection heq with he1 he2
              subst he2
              exact (parseLit_suffix _ _ _ hps).trans (List.suffix_cons _ _)
            · split at h
              · rw [Option.map_eq_some'] at h
                obtain ⟨r3, hps, heq⟩ := h
                injection heq with he1 he2
                subst he2
                exact (parseLit_suffix _ _ _ hps).trans (List.suffix_cons _ _)
              · split at h
                · rw [Option.map_eq_some'] at h
                  obtain ⟨r3, hps, heq⟩ := h
                  injection heq with he1 he2
                  subst he2
                  exact (parseLit_suffix _ _ _ hps).trans (List.suffix_cons _ _)
                · split at h
                  · rw [Option.map_eq_some'] at h
                    obtain ⟨r3, hps, heq⟩ := h
                    injection heq with he1 he2
                    subst he2
                    exact (parseLit_suffix _ _ _ hps).trans (List.suffix_cons _ _)
                  · split at h
                    · rw [Option.map_eq_some'] at h
                      obtain ⟨r3, hps, heq⟩ := h
                      injection heq with he1 he2
                      subst he2
                      exact (parseLit_suffix _ _ _ hps).trans (List.suffix_cons _ _)
                    · split at h
                      · split at h
                        · rename_i r2 heqL
                          injection h with hpair
                          injection hpair with h1 h2
                          subst h2
                          exact (parseLit_suffix _ _ _ heqL).trans (List.suffix_cons _ _)
                        · rw [Option.map_eq_some'] at h
                          obtain ⟨⟨s2, r3⟩, hps, heq⟩ := h
                          injection heq with he1 he2
                          subst he2
                          exact parseNumber_suffix _ _ _ hps
                      · rw [Option.map_eq_some'] at h
                        obtain ⟨⟨s2, r3⟩, hps, heq⟩ := h
                        injection heq with he1 he2
                        subst he2
                        exact parseNumber_suffix _ _ _ hps

theorem parseObjElemsF_shape (pv : List Char → Option (Json × List Char)) :
    ∀ f l acc j r, parseObjElemsF pv f l acc = some (j, r) → ∃ fs, j = .obj fs := by
  intro f
  induction f with
  | zero => intro l acc j r h; exact Option.noConfusion h
  | succ f ih =>
    intro l acc j r h
    rw [parseObjElemsF_succ] at h
    split at h
    · split at h
      · exact Option.noConfusion h
      · split at h
        · split at h
          · exact Option.noConfusion h
          · split at h
            · injection h with hpair
              injection hpair with h1 h2
              exact ⟨_, h1.symm⟩
            · exact ih _ _ _ _ h
            · exact Option.noConfusion h
        · exact Option.noConfusion h
    · exact Option.noConfusion h

theorem parseArrElemsF_close (pv : List Char → Option (Json × List Char))
    (hpv : ∀ l v r, pv l = some (v, r) → r <:+ l) :
    ∀ f l acc j r, parseArrElemsF pv f l acc = some (j, r) → ∃ c, l = c ++ ']' :: r := by
  intro f
  induction f with
  | zero => intro l acc j r h; exact Option.noConfusion h
  | succ f ih =>
    intro l acc j r h
    rw [parseArrElemsF_succ] at h
    split at h
    · exact Option.noConfusion h
    · rename_i v1 r1 heq1
      split at h
      · rename_i heq2
        injection h with hpair
        injection hpair with h1 h2
        obtain ⟨w1, hw1⟩ := hpv _ _ _ heq1
        obtain ⟨w2, hw2⟩ := (List.dropWhile_suffix isWsChar : skipWs r1 <:+ r1)
        refine ⟨w1 ++ w2, ?_⟩
        rw [← hw1, ← hw2, show List.dropWhile isWsChar r1 = skipWs r1 from rfl, heq2, h2]
        simp [List.append_assoc]
      · rename_i r2 heq2
        obtain ⟨c2, hc2⟩ := ih _ _ _ _ h
        obtain ⟨w1, hw1⟩ := hpv _ _ _ heq1
        obtain ⟨w2, hw2⟩ := (List.dropWhile_suffix isWsChar : skipWs r1 <:+ r1)
        obtain ⟨w3, hw3⟩ := (List.dropWhile_suffix isWsChar : skipWs r2 <:+ r2)
        refine ⟨w1 ++ w2 ++ ',' :: (w3 ++ c2), ?_⟩
        rw [← hw1, ← hw2, show List.dropWhile isWsChar r1 = skipWs r1 from rfl, heq2,
          ← hw3, show List.dropWhile isWsChar r2 = skipWs r2 from rfl, hc2]
        simp [List.append_assoc]
      · exact Option.noConfusion h

theorem parseValue_arr_close (f : Nat) (l : List Char) (xs : List Json) (r : List Char)
    (h : parseValue f l = some (.arr xs, r)) : ∃ c, l = c ++ ']' :: r := by
  cases f with
  | zero => exact Option.noConfusion h
  | succ f =>
    rw [parseValue_succ] at h
    split at h
    · exact Option.noConfusion h
    · rename_i c0 r0
      split at h
      · split at h
        · injection h with hpair
          injection hpair with h1 h2
          exact Json.noConfusion h1
        · obtain ⟨fs, hfs⟩ := parseObjElemsF_shape _ _ _ _ _ _ h
          exact Json.noConfusion hfs
      · split at h
        · split at h
          · rename_i heq
            injection h with hpair
            injection hpair with h1 h2
            obtain ⟨w2, hw2⟩ := (List.dropWhile_suffix isWsChar : skipWs r0 <:+ r0)
            refine ⟨c0 :: w2, ?_⟩
            rw [show (c0 :: w2) ++ ']' :: r = c0 :: (w2 ++ ']' :: r) from rfl, ← h2, ← heq]
            conv_lhs => rw [← hw2]
            rfl
          · obtain ⟨c2, hc2⟩ := parseArrElemsF_close _ (parseValue_suffix f) _ _ _ _ _ h
            obtain ⟨w2, hw2⟩ := (List.dropWhile_suffix isWsChar : skipWs r0 <:+ r0)
            refine ⟨c0 :: (w2 ++ c2), ?_⟩
            conv_lhs => rw [← hw2, show List.dropWhile isWsChar r0 = skipWs r0 from rfl, hc2]
            simp [List.append_assoc]
        · split at h
          · rw [Option.map_eq_some'] at h
            obtain ⟨⟨s2, r3⟩, hps, heq⟩ := h
            injection heq with he1 he2
            exact Json.noConfusion he1
          · split at h
            · rw [Option.map_eq_some'] at h
              obtain ⟨r3, hps, heq⟩ := h
              injection heq with he1 he2
              exact Json.noConfusion he1
            · split at h
              · rw [Option.map_eq_some'] at h
                obtain ⟨r3, hps, heq⟩ := h
                injection heq with he1 he2
                exact Json.noConfusion he1
              · split at h
                · rw [Option.map_eq_some'] at h
                  obtain ⟨r3, hps, heq⟩ := h
                  injection heq with he1 he2
                  exact Json.noConfusion he1
                · split at h
                  · rw [Option.map_eq_some'] at h
                    obtain ⟨r3, hps, heq⟩ := h
                    injection heq with he1 he2
                    exact Json.noConfusion he1
                  · split at h
                    · rw [Option.map_eq_some'] at h
                      obtain ⟨r3, hps, heq⟩ := h
                      injection heq with he1 he2
                      exact Json.noConfusion he1
                    · split at h
                      · split at h
                        · injection h with hpair
                          injection hpair with h1 h2
                          exact Json.noConfusion h1
                        · rw [Option.map_eq_some'] at h
                          obtain ⟨⟨s2, r3⟩, hps, heq⟩ := h
                          injection heq with he1 he2
                          exact Json.noConfusion he1
                      · rw [Option.map_eq_some'] at h
                        obtain ⟨⟨s2, r3⟩, hps, heq⟩ := h
                        injection heq with he1 he2
                        exact Json.noConfusion he1

/-- A text that `json.loads` parses as an array is a `]` followed only by
whitespace. -/
theorem json_loads_arr_shape {p : List Char} {xs : List Json}
    (h : json_loads p = some (.arr xs)) :
    ∃ q t, p = q ++ ']' :: t ∧ ∀ c ∈ t, isWsChar c = true := by
  unfold json_loads at h
  split at h
  · rename_i v heqv
    injection h with hv
    subst hv
    obtain ⟨c, hc⟩ := parseValue_arr_close _ _ _ _ heqv
    have hd1 : p = dropTrailingWs p ++ (p.reverse.takeWhile isWsChar).reverse := by
      unfold dropTrailingWs
      conv_lhs => rw [← List.reverse_reverse p,
        ← List.takeWhile_append_dropWhile isWsChar p.reverse, List.reverse_append]
    have hd2 : dropTrailingWs p =
        (dropTrailingWs p).takeWhile isWsChar ++ skipWs (dropTrailingWs p) :=
      (List.takeWhile_append_dropWhile isWsChar (dropTrailingWs p)).symm
    refine ⟨(dropTrailingWs p).takeWhile isWsChar ++ c,
      (p.reverse.takeWhile isWsChar).reverse, ?_, ?_⟩
    · calc p = dropTrailingWs p ++ (p.reverse.takeWhile isWsChar).reverse := hd1
        _ = ((dropTrailingWs p).takeWhile isWsChar ++ (c ++ [']'])) ++
              (p.reverse.takeWhile isWsChar).reverse := by rw [← hc, ← hd2]
        _ = ((dropTrailingWs p).takeWhile isWsChar ++ c) ++ ']' ::
              (p.reverse.takeWhile isWsChar).reverse := by simp [List.append_assoc]
    · intro x hx
      rw [List.mem_reverse] at hx
      exact List.mem_takeWhile_imp hx
  · exact Option.noConfusion h

/-- Appending a newline (trailing whitespace) does not change `json.loads`. -/
theorem json_loads_append_nl (l : List Char) :
    json_loads (l ++ ['\n']) = json_loads l := by
  have hdt : dropTrailingWs (l ++ ['\n']) = dropTrailingWs l := by
    unfold dropTrailingWs
    rw [List.reverse_append,
      show List.reverse ['\n'] ++ l.reverse = '\n' :: l.reverse from rfl,
      List.dropWhile_cons, if_pos (by decide)]
  unfold json_loads
  rw [hdt]

/-- The fenced wrapping of a payload: three backticks and `json`, a newline,
the payload, a newline and three closing backticks. -/
def wrapFenced (p : List Char) : List Char := fence_json ++ '\n' :: (p ++ nlf3)

-- the wrapping is the literal decoration named in the spec
example : wrapFenced (s2l "[1]") = s2l "```json\n[1]\n```" := rfl

/-- C8: for a payload that parses as a JSON array, the requester
post-processing (fence stripping then `json.loads`) gives the same result on
the fenced-wrapped response as on the bare payload. -/
theorem c8_fenced_wrap_same_parse (p : List Char) (xs : List Json)
    (h : json_loads p = some (.arr xs)) :
    parse_llm_response (wrapFenced p) = parse_llm_response p := by
  obtain ⟨q, t, hp, ht⟩ := json_loads_arr_shape h
  obtain ⟨hn1, hn2⟩ := fence_facts hp ht
  have h1 : sub1 (wrapFenced p) = sub1 p ++ nlf3 := by
    rw [show wrapFenced p = fence_json ++ '\n' :: (p ++ nlf3) from rfl, sub1_hit,
      show dropNl ('\n' :: (p ++ nlf3)) = p ++ nlf3 from by rw [dropNl_cons, if_pos rfl]]
    exact sub1_append_fence p hn1
  have h2 : sub2 (sub1 p ++ nlf3) = sub2 (sub1 p) ++ ['\n'] := sub2_append_fence _ hn2
  unfold parse_llm_response
  rw [h1, h2, json_loads_append_nl]

/-- Witness for C8 on the payload `[1, 2]`. -/
theorem c8_fenced_wrap_same_parse_witness :
    json_loads (s2l "[1, 2]") = some (.arr [.num (s2l "1"), .num (s2l "2")]) ∧
    parse_llm_response (wrapFenced (s2l "[1, 2]")) = parse_llm_response (s2l "[1, 2]") :=
  ⟨rfl, c8_fenced_wrap_same_parse _ [.num (s2l "1"), .num (s2l "2")] rfl⟩
